import Mathlib

/-!
Verification of the ClaimWise retrieval-and-generation pipeline.

The definitions below are a shallow embedding of the core backend modules:

* `src/backend/src/rag.py` — word chunking (`chunk_texts`) and top-k
  retrieval (`retrieve_top_k`);
* `src/backend/src/content_filters.py` — chunk deduplication
  (`deduplicate_chunks`) and the content fingerprint
  (`get_content_fingerprint`);
* `src/backend/src/llm.py` — the completion provider chain
  (`make_llm_request`) and its rule-based fallback
  (`pattern_matching_fallback`);
* `src/backend/src/caching.py` — the bounded key/value store
  (`AdvancedCache`) with its four eviction strategies.

Python strings are `String`, timestamps are seconds as `Nat`, Python integers
are `Int` where subtraction occurs, external calls (embedding providers,
completion backends, the vector-store RPC) are represented by their outcomes
(`PyResult`), and the Python dict `_cache` is an insertion-ordered association
list.
-/

namespace ClaimWise

/-- Python `str.split()` with no argument: split on runs of whitespace,
dropping empty pieces.  `cur` accumulates the current word in reverse. -/
def wordsAux : List Char → List Char → List String
  | [], cur => if cur.isEmpty then [] else [String.mk cur.reverse]
  | c :: cs, cur =>
    if c.isWhitespace then
      if cur.isEmpty then wordsAux cs []
      else String.mk cur.reverse :: wordsAux cs []
    else wordsAux cs (c :: cur)

/-- Python `s.split()` on a whole string. -/
def pySplitWS (s : String) : List String := wordsAux s.data []

/-- Python `sep.join(xs)`. -/
def joinWith (sep : String) : List String → String
  | [] => ""
  | [x] => x
  | x :: xs => x ++ sep ++ joinWith sep xs

/-- Stride of the chunking loop: `max(1, chunk_size - overlap)` (rag.py
line 35).  With `Nat` arguments the truncated subtraction agrees with the
Python `int` subtraction under the `max`. -/
def chunkStep (chunk_size overlap : Nat) : Nat := max 1 (chunk_size - overlap)

/-- The chunk emitted at word index `i`: `" ".join(words[i:j])` with
`j = min(i + chunk_size, len(words))` (rag.py lines 31-32). -/
def chunkSlice (words : List String) (chunk_size i : Nat) : String :=
  joinWith " " ((words.drop i).take (min (i + chunk_size) words.length - i))

/-- The `while i < len(words)` loop of `chunk_texts` (rag.py lines 30-41):
append the window at `i`, stop once more than 10000 chunks have been
produced, otherwise advance by the stride. -/
def chunkLoop (words : List String) (chunk_size overlap : Nat) (i : Nat)
    (chunks : List String) : List String :=
  if h : i < words.length then
    let chunks2 := chunks ++ [chunkSlice words chunk_size i]
    if chunks2.length > 10000 then chunks2
    else chunkLoop words chunk_size overlap (i + chunkStep chunk_size overlap) chunks2
  else chunks
termination_by words.length - i
decreasing_by
  have h1 : 1 ≤ chunkStep chunk_size overlap := le_max_left 1 (chunk_size - overlap)
  omega

/-- `chunk_texts` from rag.py (lines 15-43): join the texts, split on
whitespace, and emit overlapping word windows. -/
def chunk_texts (texts : List String) (chunk_size : Nat := 500) (overlap : Nat := 50) :
    List String :=
  chunkLoop (pySplitWS (joinWith " " texts)) chunk_size overlap 0 []

/-- Number of iterations the chunk loop performs from word index `i` with `c`
chunks already accumulated: the ceiling of `(len - i) / step`, capped by the
`10000`-chunk safety valve (which fires only after the 10001st append). -/
def chunkCount (L chunk_size overlap i c : Nat) : Nat :=
  min ((L - i + (chunkStep chunk_size overlap - 1)) / chunkStep chunk_size overlap)
    (10001 - c)

/-- Python `c.lower()` applied characterwise, as `str.lower()` does on the
ASCII text these functions receive. -/
def pyLower (l : List Char) : List Char := l.map Char.toLower

/-- Python `s.strip()`: drop leading and trailing whitespace. -/
def pyStrip (l : List Char) : List Char :=
  ((l.dropWhile Char.isWhitespace).reverse.dropWhile Char.isWhitespace).reverse

/-- Collapse every maximal run of whitespace to a single space, as
`re.sub(r'\s+', ' ', text)` does; the flag records whether the previous
character was whitespace. -/
def collapseWSAux : Bool → List Char → List Char
  | _, [] => []
  | prevWS, c :: cs =>
    if c.isWhitespace then
      if prevWS then collapseWSAux true cs
      else ' ' :: collapseWSAux true cs
    else c :: collapseWSAux false cs

/-- The normalization used by `get_content_fingerprint`
(content_filters.py line 105): `re.sub(r'\s+', ' ', text.strip().lower())`. -/
def pyNormalizeWS (s : String) : String :=
  String.mk (collapseWSAux false (pyLower (pyStrip s.data)))

/-- Key under which `deduplicate_chunks` detects duplicates:
`chunk.strip().lower()` (content_filters.py line 75); the Python `hash` call
is modelled by keeping the normalized string itself, i.e. as an injective
hash. -/
def dedupKey (s : String) : String := String.mk (pyLower (pyStrip s.data))

/-- Loop of `deduplicate_chunks` (content_filters.py lines 70-84): keep a
chunk when its key has not been seen, else drop it. -/
def dedupLoop (seen : List String) : List String → List String
  | [] => []
  | c :: cs =>
    if dedupKey c ∈ seen then dedupLoop seen cs
    else c :: dedupLoop (dedupKey c :: seen) cs

/-- `deduplicate_chunks` from content_filters.py (its `similarity_threshold`
parameter is never read by the code and is omitted). -/
def deduplicate_chunks (chunks : List String) : List String := dedupLoop [] chunks

/-- `get_content_fingerprint` from content_filters.py (lines 92-106);
`sha256_hex` stands for the external `hashlib.sha256(...).hexdigest()`, kept
as an arbitrary function since the fingerprint properties hold for any
digest. -/
def get_content_fingerprint (sha256_hex : String → String) (text : String) : String :=
  sha256_hex (pyNormalizeWS text)

/-- Python `str.startswith` on character lists. -/
def listStartsWith : List Char → List Char → Bool
  | [], _ => true
  | _ :: _, [] => false
  | a :: as, b :: bs => a == b && listStartsWith as bs

/-- Python `needle in hay`: `needle` is a prefix of some suffix of `hay`. -/
def listContains (hay needle : List Char) : Bool :=
  listStartsWith needle hay ||
    match hay with
    | [] => false
    | _ :: rest => listContains rest needle

/-- Python `needle in hay` on strings (case-sensitive substring test). -/
def pyContains (hay needle : String) : Bool := listContains hay.data needle.data

/-- Python `s.lower()` on a string. -/
def pyLowerStr (s : String) : String := String.mk (pyLower s.data)

/-- `any(word in prompt_lower for word in ws)` (llm.py lines 112-130). -/
def anyWordIn (ws : List String) (s : String) : Bool := ws.any (fun w => pyContains s w)

/-- `_pattern_matching_fallback` from llm.py (lines 104-134): the
deterministic offline responder, an ordered keyword dispatch over the
lower-cased prompt.  The response strings are those of the source verbatim
(apostrophes written as the escape `\x27`). -/
def pattern_matching_fallback (prompt : String) : String :=
  let prompt_lower := pyLowerStr prompt
  if anyWordIn ["sum insured", "coverage amount", "insured amount"] prompt_lower then
    "Based on the policy document, please check the \x27Sum Insured\x27 section for coverage amounts. This information is typically listed in the policy schedule."
  else if anyWordIn ["premium", "cost", "price"] prompt_lower then
    "Premium information can be found in the policy schedule section. The amount may vary based on coverage type and duration."
  else if anyWordIn ["claim", "how to claim"] prompt_lower then
    "To file a claim, contact the insurance company\x27s claim department. Required documents typically include policy details, medical bills, and claim forms."
  else if anyWordIn ["maturity", "tenure", "duration"] prompt_lower then
    "Policy tenure and maturity details are specified in the policy terms section. Please refer to the policy schedule for specific dates."
  else if anyWordIn ["exclusion", "not covered", "excluded"] prompt_lower then
    "Policy exclusions are listed in the exclusions section of the policy document. Please review this section carefully for items not covered."
  else if anyWordIn ["deductible", "copay", "co-payment"] prompt_lower then
    "Deductible and co-payment information is specified in the policy terms. Check the \x27Terms and Conditions\x27 section for exact amounts."
  else if anyWordIn ["renewal", "renew"] prompt_lower then
    "Policy renewal information and procedures are outlined in the renewal section of your policy document."
  else
    "I apologize, but I cannot provide a detailed response at the moment due to service limitations. Please refer to your policy document or contact your insurance provider directly for specific information."

/-- Outcome of one call into an external service: the call either raises an
exception or returns a value. -/
inductive PyResult (A : Type) where
  | raises : PyResult A
  | ok : A → PyResult A
deriving DecidableEq

/-- The acceptance test applied to a Groq response (llm.py lines 68 and 93):
`response and not response.startswith("Error") and len(response) > 10`. -/
def groq_response_ok (s : String) : Bool :=
  (!s.isEmpty) && (!listStartsWith "Error".data s.data) && decide (s.length > 10)

/-- `make_llm_request` from llm.py (lines 41-101), with the three external
calls — the primary Groq attempt, the Gemini attempt, and the Groq fallback
attempt inside the Gemini `except` handler — represented by their outcomes.
`none` is the Python `None` that the function returns when control falls off
its end: the chain-3 pattern-matching fallback (lines 99-101) sits inside the
`except` block of the Gemini `try`, so a Gemini call that returns without
raising but fails the emptiness/length check reaches the end of the function
body with no `return`. -/
def make_llm_request (prefer_groq : Bool)
    (groq_primary gemini groq_fallback : PyResult String) (prompt : String) :
    Option String :=
  let primary : Option String :=
    if prefer_groq then
      match groq_primary with
      | .ok r => if groq_response_ok r then some r else none
      | .raises => none
    else none
  match primary with
  | some r => some r
  | none =>
    match gemini with
    | .ok t => if (!t.isEmpty) && decide (t.length > 10) then some t else none
    | .raises =>
      let fb : Option String :=
        if !prefer_groq then
          match groq_fallback with
          | .ok r => if groq_response_ok r then some r else none
          | .raises => none
        else none
      match fb with
      | some r => some r
      | none => some (pattern_matching_fallback prompt)

/-- One row returned by the `vector_search_document_chunks` RPC; each field is
read with `dict.get` and hence optional.  Scores are kept abstract as `Int`. -/
structure SearchRow where
  id : Option Nat
  content : Option String
  score : Option Int
deriving DecidableEq

/-- `retrieve_top_k` from rag.py (lines 135-159), with the two external calls
— `embed_texts_with_cache([query])` and the vector-search RPC — represented
by their outcomes.  `rpc` carries `res.data`, which may be `None`.  The
embedding call sits outside any `try`, so an exception from it propagates
(`.raises`); an exception from the RPC is caught and turned into `[]`.  The
`k` and `policy_id` arguments are only forwarded to the RPC as `limit_count`
and `filter_policy_id` and do not otherwise affect control flow. -/
def retrieve_top_k (q_embs : PyResult (List (List Int)))
    (rpc : PyResult (Option (List SearchRow))) :
    PyResult (List (Option Nat × Option String × Option Int)) :=
  match q_embs with
  | .raises => .raises
  | .ok embs =>
    if embs.isEmpty then .ok []
    else
      match rpc with
      | .raises => .ok []
      | .ok data =>
        .ok ((data.getD []).map (fun r => (r.id, r.content, r.score)))

/-- Eviction strategies of `AdvancedCache` (caching.py lines 21-26). -/
inductive CacheStrategy where
  | lru
  | lfu
  | ttl
  | fifo
deriving DecidableEq

/-- `CacheItem` (caching.py lines 28-44); timestamps are seconds as `Nat`. -/
structure CacheItem (V : Type) where
  key : String
  value : V
  created_at : Nat
  last_accessed : Nat
  access_count : Nat
  ttl : Option Nat
  size_bytes : Nat

/-- `CacheItem.is_expired` (caching.py lines 39-44):
`check_time > self.created_at + timedelta(seconds=self.ttl)`. -/
def CacheItem.is_expired (item : CacheItem V) (check_time : Nat) : Bool :=
  match item.ttl with
  | none => false
  | some t => decide (item.created_at + t < check_time)

/-- State of `AdvancedCache` (caching.py lines 51-74).  `cache` is the
insertion-ordered dict `_cache` as an association list; `calc_size` stands
for `_calculate_size` (an external size estimate); `current_memory_usage` is
an `Int` exactly like the Python integer it mirrors.  Each `datetime.now()`
read is supplied as an explicit `now` argument to the operations. -/
structure AdvancedCache (V : Type) where
  max_size : Nat
  max_memory_bytes : Nat
  strategy : CacheStrategy
  default_ttl : Option Nat
  calc_size : V → Nat
  cache : List (String × CacheItem V)
  access_order : List String
  current_memory_usage : Int
  hits : Nat
  misses : Nat
  evictions : Nat

/-- Dict lookup `self._cache[key]` (first — and in a real dict only —
binding of the key). -/
def findEntry (key : String) : List (String × CacheItem V) → Option (CacheItem V)
  | [] => none
  | p :: ps => if p.1 == key then some p.2 else findEntry key ps

/-- Dict deletion `del self._cache[key]`. -/
def removeEntry (key : String) : List (String × CacheItem V) → List (String × CacheItem V)
  | [] => []
  | p :: ps => if p.1 == key then ps else p :: removeEntry key ps

/-- In-place mutation of the item stored under `key`. -/
def updateEntry (key : String) (item : CacheItem V) :
    List (String × CacheItem V) → List (String × CacheItem V)
  | [] => []
  | p :: ps => if p.1 == key then (p.1, item) :: ps else p :: updateEntry key item ps

/-- `_remove_item` (caching.py lines 134-140). -/
def AdvancedCache.remove_item (s : AdvancedCache V) (key : String) : AdvancedCache V :=
  match findEntry key s.cache with
  | none => s
  | some item =>
    { s with cache := removeEntry key s.cache,
             current_memory_usage := s.current_memory_usage - item.size_bytes,
             access_order := s.access_order.erase key }

/-- `_clean_expired` (caching.py lines 142-147): collect the expired keys,
then remove each. -/
def AdvancedCache.clean_expired (s : AdvancedCache V) (t : Nat) : AdvancedCache V :=
  ((s.cache.filter (fun p => p.2.is_expired t)).map Prod.fst).foldl
    (fun acc k => acc.remove_item k) s

/-- Python `min(keys, key=f)`: the first key attaining the minimal
attribute. -/
def argminKey (f : CacheItem V → Nat) : List (String × CacheItem V) → Option String
  | [] => none
  | p :: ps => some ((ps.foldl (fun best q => if f q.2 < f best.2 then q else best) p).1)

/-- `_choose_eviction_key` (caching.py lines 101-132): `None` on an empty
cache, else the key with the minimal strategy attribute (for TTL: among the
expired entries if any are expired, else by creation time). -/
def AdvancedCache.choose_eviction_key (s : AdvancedCache V) (now : Nat) : Option String :=
  if s.cache.isEmpty then none
  else
    match s.strategy with
    | .lru => argminKey (fun it => it.last_accessed) s.cache
    | .lfu => argminKey (fun it => it.access_count) s.cache
    | .ttl =>
      if (s.cache.filter (fun p => p.2.is_expired now)).isEmpty then
        argminKey (fun it => it.created_at) s.cache
      else argminKey (fun it => it.created_at) (s.cache.filter (fun p => p.2.is_expired now))
    | .fifo => argminKey (fun it => it.created_at) s.cache

/-- One-iteration-per-step unfolding of the `while` loop of
`_evict_if_needed` (caching.py lines 87-99).  Each iteration that runs its
body evicts one entry, so a fuel of `cache.length + 1` always carries the
loop to its exit condition. -/
def AdvancedCache.evictLoopFuel (now : Nat) : Nat → AdvancedCache V → AdvancedCache V
  | 0, s => s
  | fuel + 1, s =>
    if decide (s.max_size ≤ s.cache.length) ||
        decide ((s.max_memory_bytes : Int) ≤ s.current_memory_usage) then
      if s.cache.isEmpty then s
      else
        match s.choose_eviction_key now with
        | some k =>
          AdvancedCache.evictLoopFuel now fuel
            { s.remove_item k with evictions := (s.remove_item k).evictions + 1 }
        | none => s
    else s

/-- `_evict_if_needed` (caching.py lines 87-99). -/
def AdvancedCache.evict_if_needed (s : AdvancedCache V) (now : Nat) : AdvancedCache V :=
  AdvancedCache.evictLoopFuel now (s.cache.length + 1) s

/-- Body of `get` (caching.py lines 149-171) after `_clean_expired` has run;
`s1` is the swept state.  Returns the looked-up value (with `none` for the
Python default `None`) together with the state after the call. -/
def AdvancedCache.getAt (s1 : AdvancedCache V) (key : String) (now : Nat) :
    Option V × AdvancedCache V :=
  match findEntry key s1.cache with
  | none => (none, { s1 with misses := s1.misses + 1 })
  | some item =>
    if item.is_expired now then
      (none, { s1.remove_item key with misses := (s1.remove_item key).misses + 1 })
    else
      (some item.value,
       { s1 with
          cache := updateEntry key
            { item with last_accessed := now, access_count := item.access_count + 1 }
            s1.cache,
          access_order := s1.access_order.erase key ++ [key],
          hits := s1.hits + 1 })

/-- `get` (caching.py lines 149-171): sweep expired entries, then look up. -/
def AdvancedCache.get (s : AdvancedCache V) (key : String) (now : Nat) :
    Option V × AdvancedCache V :=
  AdvancedCache.getAt (s.clean_expired now) key now

/-- Python `ttl or self.default_ttl` (line 195): the falsy values `0` and
`None` both fall back to the default. -/
def pyOrTTL (ttl : Option Nat) (d : Option Nat) : Option Nat :=
  match ttl with
  | some t => if t = 0 then d else some t
  | none => d

/-- Lines 184-186 of `set`: `if key in self._cache: self._remove_item(key)`. -/
def AdvancedCache.removeIfPresent (s : AdvancedCache V) (key : String) : AdvancedCache V :=
  if (findEntry key s.cache).isSome then s.remove_item key else s

/-- Lines 188-197 of `set`: the freshly created `CacheItem`. -/
def AdvancedCache.newItem (s : AdvancedCache V) (key : String) (value : V)
    (ttl : Option Nat) (now : Nat) : CacheItem V :=
  { key := key, value := value, created_at := now, last_accessed := now,
    access_count := 1, ttl := pyOrTTL ttl s.default_ttl, size_bytes := s.calc_size value }

/-- Lines 199-202 of `set`: append the item and bump the tracked usage. -/
def AdvancedCache.insertItem (s : AdvancedCache V) (key : String) (item : CacheItem V) :
    AdvancedCache V :=
  { s with cache := s.cache ++ [(key, item)],
           access_order := if s.access_order.contains key then s.access_order
                           else s.access_order ++ [key],
           current_memory_usage := s.current_memory_usage + item.size_bytes }

/-- `set` (caching.py lines 173-207): reject an item whose size alone exceeds
the byte budget, else remove any existing binding, insert the fresh item, and
evict as needed. -/
def AdvancedCache.set (s : AdvancedCache V) (key : String) (value : V)
    (ttl : Option Nat) (now : Nat) : Bool × AdvancedCache V :=
  if s.max_memory_bytes < s.calc_size value then (false, s)
  else
    (true,
     (((s.removeIfPresent key).insertItem key (s.newItem key value ttl now)).evict_if_needed
       now))

/-- `delete` (caching.py lines 209-215). -/
def AdvancedCache.delete (s : AdvancedCache V) (key : String) : Bool × AdvancedCache V :=
  if (findEntry key s.cache).isSome then (true, s.remove_item key) else (false, s)

/-- `exists` (caching.py lines 217-222): sweep, then test presence and
expiry. -/
def AdvancedCache.existsKey (s : AdvancedCache V) (key : String) (now : Nat) :
    Bool × AdvancedCache V :=
  match findEntry key (s.clean_expired now).cache with
  | none => (false, s.clean_expired now)
  | some item => (!item.is_expired now, s.clean_expired now)

/-- `keys` (caching.py lines 231-236): sweep, then list the keys. -/
def AdvancedCache.keysList (s : AdvancedCache V) (now : Nat) :
    List String × AdvancedCache V :=
  ((s.clean_expired now).cache.map Prod.fst, s.clean_expired now)

/-- `clear` (caching.py lines 224-229). -/
def AdvancedCache.clear (s : AdvancedCache V) : AdvancedCache V :=
  { s with cache := [], access_order := [], current_memory_usage := 0 }

/-- Total of the `size_bytes` fields of the stored items. -/
def entriesSize (l : List (String × CacheItem V)) : Int :=
  (l.map (fun p => (p.2.size_bytes : Int))).sum

/-- Representation invariant of `AdvancedCache`: the tracked
`_current_memory_usage` equals the sum of the stored `size_bytes`. -/
def memInv (s : AdvancedCache V) : Prop := s.current_memory_usage = entriesSize s.cache

/-- The association list stores each key at most once, as a Python dict
does by construction. -/
def keysNodup (l : List (String × CacheItem V)) : Prop := (l.map Prod.fst).Nodup

/-- A small concrete cache instance (strategy and bounds as in the
`embeddings` cache of caching.py, scaled down) used to instantiate the cache
theorems on computable inputs. -/
def cacheDemo : AdvancedCache String :=
  { max_size := 10, max_memory_bytes := 1000, strategy := .lru, default_ttl := none,
    calc_size := String.length, cache := [], access_order := [],
    current_memory_usage := 0, hits := 0, misses := 0, evictions := 0 }

end ClaimWise

namespace ClaimWise

theorem chunkCount_succ (L chunk_size overlap i c : Nat) (hi : i < L) (hc : c ≤ 9999) :
    chunkCount L chunk_size overlap i c =
      chunkCount L chunk_size overlap (i + chunkStep chunk_size overlap) (c + 1) + 1 := by
  have hs : 1 ≤ chunkStep chunk_size overlap := le_max_left 1 (chunk_size - overlap)
  set s := chunkStep chunk_size overlap with hsdef
  have hA : (L - i + (s - 1)) / s = (L - (i + s) + (s - 1)) / s + 1 := by
    rcases le_or_lt L (i + s) with hle | hlt
    · have h0 : L - (i + s) = 0 := by omega
      rw [h0, Nat.zero_add]
      have h1 : (s - 1) / s = 0 := Nat.div_eq_of_lt (by omega)
      rw [h1]
      exact Nat.div_eq_of_lt_le (by omega) (by omega)
    · have harr : L - i + (s - 1) = (L - (i + s) + (s - 1)) + s := by omega
      rw [harr, Nat.add_div_right _ (by omega : 0 < s)]
  unfold chunkCount
  rw [← hsdef, hA, show 10001 - c = (10000 - c) + 1 by omega,
    show 10001 - (c + 1) = 10000 - c by omega]
  exact Nat.succ_min_succ _ _

theorem chunkLoop_eq (words : List String) (chunk_size overlap i : Nat)
    (chunks : List String) (hc : chunks.length ≤ 10000) :
    chunkLoop words chunk_size overlap i chunks =
      chunks ++ (List.range (chunkCount words.length chunk_size overlap i chunks.length)).map
        (fun t => chunkSlice words chunk_size (i + t * chunkStep chunk_size overlap)) := by
  have hs : 1 ≤ chunkStep chunk_size overlap := le_max_left 1 (chunk_size - overlap)
  rw [chunkLoop]
  by_cases h : i < words.length
  · rw [dif_pos h]
    simp only [List.length_append, List.length_singleton]
    by_cases hfull : chunks.length + 1 > 10000
    · rw [if_pos hfull]
      have hc0 : chunks.length = 10000 := by omega
      have hcount : chunkCount words.length chunk_size overlap i chunks.length = 1 := by
        unfold chunkCount
        have h1 : 1 ≤ (words.length - i + (chunkStep chunk_size overlap - 1)) /
            chunkStep chunk_size overlap := by
          rw [Nat.one_le_div_iff (by omega)]
          omega
        omega
      rw [hcount]
      simp [List.range_succ]
    · rw [if_neg hfull]
      have ih := chunkLoop_eq words chunk_size overlap (i + chunkStep chunk_size overlap)
        (chunks ++ [chunkSlice words chunk_size i]) (by simp; omega)
      have hfun : ((fun t => chunkSlice words chunk_size
            (i + t * chunkStep chunk_size overlap)) ∘ Nat.succ)
          = fun t => chunkSlice words chunk_size
              (i + chunkStep chunk_size overlap + t * chunkStep chunk_size overlap) := by
        funext t
        simp only [Function.comp_apply, Nat.succ_eq_add_one]
        congr 1
        ring
      rw [ih]
      simp only [List.length_append, List.length_singleton]
      rw [chunkCount_succ words.length chunk_size overlap i chunks.length h (by omega),
        List.range_succ_eq_map, List.map_cons, List.map_map, hfun,
        List.append_assoc, List.singleton_append]
      simp
  · rw [dif_neg h]
    have h0 : words.length - i = 0 := by omega
    have hcount : chunkCount words.length chunk_size overlap i chunks.length = 0 := by
      unfold chunkCount
      rw [h0, Nat.zero_add, Nat.div_eq_of_lt (by omega)]
      omega
    rw [hcount]
    simp
termination_by words.length - i
decreasing_by
  omega

theorem chunk_texts_eq (texts : List String) (chunk_size overlap : Nat) :
    chunk_texts texts chunk_size overlap =
      (List.range (chunkCount (pySplitWS (joinWith " " texts)).length chunk_size overlap 0 0)).map
        (fun t => chunkSlice (pySplitWS (joinWith " " texts)) chunk_size
          (t * chunkStep chunk_size overlap)) := by
  unfold chunk_texts
  rw [chunkLoop_eq _ _ _ _ _ (by simp)]
  simp

theorem pySplit_join_replicate (n : Nat) :
    pySplitWS (joinWith " " (List.replicate (n + 1) "a")) = List.replicate (n + 1) "a" := by
  induction n with
  | zero => rfl
  | succ k ih =>
    rw [List.replicate_succ]
    have hj : joinWith " " ("a" :: List.replicate (k + 1) "a")
        = "a" ++ " " ++ joinWith " " (List.replicate (k + 1) "a") := by
      rw [List.replicate_succ]
      rfl
    rw [hj]
    have hdata : ("a" ++ " " ++ joinWith " " (List.replicate (k + 1) "a")).data
        = 'a' :: ' ' :: (joinWith " " (List.replicate (k + 1) "a")).data := rfl
    unfold pySplitWS
    rw [hdata]
    have hstep : ∀ l : List Char, wordsAux ('a' :: ' ' :: l) [] = "a" :: wordsAux l [] :=
      fun l => rfl
    rw [hstep]
    rw [show wordsAux (joinWith " " (List.replicate (k + 1) "a")).data [] =
      pySplitWS (joinWith " " (List.replicate (k + 1) "a")) from rfl, ih]

theorem dedupLoop_idem (cs : List String) :
    ∀ seen, dedupLoop seen (dedupLoop seen cs) = dedupLoop seen cs := by
  induction cs with
  | nil => intro seen; rfl
  | cons c cs ih =>
    intro seen
    by_cases h : dedupKey c ∈ seen
    · rw [dedupLoop, if_pos h, ih]
    · rw [dedupLoop, if_neg h]
      conv_lhs => rw [dedupLoop, if_neg h]
      rw [ih]

end ClaimWise

namespace ClaimWise

theorem entriesSize_nil : entriesSize ([] : List (String × CacheItem V)) = 0 := rfl

theorem entriesSize_cons (p : String × CacheItem V) (l : List (String × CacheItem V)) :
    entriesSize (p :: l) = p.2.size_bytes + entriesSize l := by
  simp [entriesSize]

theorem entriesSize_append (l1 l2 : List (String × CacheItem V)) :
    entriesSize (l1 ++ l2) = entriesSize l1 + entriesSize l2 := by
  simp [entriesSize]

theorem entriesSize_removeEntry (key : String) (l : List (String × CacheItem V))
    (it : CacheItem V) (h : findEntry key l = some it) :
    entriesSize (removeEntry key l) = entriesSize l - it.size_bytes := by
  induction l with
  | nil => simp [findEntry] at h
  | cons p ps ih =>
    by_cases hm : p.1 == key
    · rw [findEntry, if_pos hm] at h
      rw [removeEntry, if_pos hm, entriesSize_cons]
      cases h
      ring
    · rw [findEntry, if_neg hm] at h
      rw [removeEntry, if_neg hm, entriesSize_cons, entriesSize_cons, ih h]
      ring

theorem entriesSize_updateEntry (key : String) (item : CacheItem V)
    (l : List (String × CacheItem V)) (it : CacheItem V)
    (h : findEntry key l = some it) (hsz : item.size_bytes = it.size_bytes) :
    entriesSize (updateEntry key item l) = entriesSize l := by
  induction l with
  | nil => simp [findEntry] at h
  | cons p ps ih =>
    by_cases hm : p.1 == key
    · rw [findEntry, if_pos hm] at h
      rw [updateEntry, if_pos hm, entriesSize_cons, entriesSize_cons]
      cases h
      rw [hsz]
    · rw [findEntry, if_neg hm] at h
      rw [updateEntry, if_neg hm, entriesSize_cons, entriesSize_cons, ih h]

theorem remove_item_memInv (s : AdvancedCache V) (key : String) (h : memInv s) :
    memInv (s.remove_item key) := by
  unfold AdvancedCache.remove_item
  cases hf : findEntry key s.cache with
  | none => exact h
  | some it =>
    unfold memInv at *
    simp only
    rw [entriesSize_removeEntry key s.cache it hf, h]

theorem foldl_remove_memInv (ks : List String) :
    ∀ s : AdvancedCache V, memInv s →
      memInv (ks.foldl (fun a k => a.remove_item k) s) := by
  induction ks with
  | nil => intro s h; exact h
  | cons k ks ih =>
    intro s h
    exact ih _ (remove_item_memInv s k h)

theorem clean_expired_memInv (s : AdvancedCache V) (t : Nat) (h : memInv s) :
    memInv (s.clean_expired t) :=
  foldl_remove_memInv _ s h

theorem getAt_memInv (s1 : AdvancedCache V) (key : String) (now : Nat) (h1 : memInv s1) :
    memInv (s1.getAt key now).2 := by
  unfold AdvancedCache.getAt
  split
  next heq => exact h1
  next item heq =>
    split
    next hexp => exact remove_item_memInv _ key h1
    next hexp =>
      unfold memInv at h1 ⊢
      simp only
      rw [entriesSize_updateEntry key
        { item with last_accessed := now, access_count := item.access_count + 1 }
        s1.cache item heq rfl]
      exact h1

theorem get_memInv (s : AdvancedCache V) (key : String) (now : Nat) (h : memInv s) :
    memInv (s.get key now).2 :=
  getAt_memInv _ key now (clean_expired_memInv s now h)

theorem evictLoopFuel_memInv (now : Nat) (fuel : Nat) :
    ∀ s : AdvancedCache V, memInv s → memInv (AdvancedCache.evictLoopFuel now fuel s) := by
  induction fuel with
  | zero => intro s h; exact h
  | succ fuel ih =>
    intro s h
    rw [AdvancedCache.evictLoopFuel]
    by_cases hg : (decide (s.max_size ≤ s.cache.length) ||
        decide ((s.max_memory_bytes : Int) ≤ s.current_memory_usage)) = true
    · rw [if_pos hg]
      by_cases he : s.cache.isEmpty
      · rw [if_pos he]; exact h
      · rw [if_neg he]
        cases hk : s.choose_eviction_key now with
        | none => exact h
        | some k => exact ih _ (remove_item_memInv s k h)
    · rw [if_neg hg]; exact h

theorem evict_if_needed_memInv (s : AdvancedCache V) (now : Nat) (h : memInv s) :
    memInv (s.evict_if_needed now) :=
  evictLoopFuel_memInv now _ s h

theorem set_memInv (s : AdvancedCache V) (key : String) (value : V) (ttl : Option Nat)
    (now : Nat) (h : memInv s) : memInv (s.set key value ttl now).2 := by
  have h1 : memInv (s.removeIfPresent key) := by
    unfold AdvancedCache.removeIfPresent
    split
    · exact remove_item_memInv s key h
    · exact h
  have h2 : memInv ((s.removeIfPresent key).insertItem key (s.newItem key value ttl now)) := by
    unfold AdvancedCache.insertItem
    unfold memInv at h1 ⊢
    simp only [entriesSize_append, entriesSize_cons, entriesSize_nil]
    rw [h1]
    ring
  unfold AdvancedCache.set
  split
  next hbig => exact h
  next hbig => exact evict_if_needed_memInv _ now h2

theorem delete_memInv (s : AdvancedCache V) (key : String) (h : memInv s) :
    memInv (s.delete key).2 := by
  unfold AdvancedCache.delete
  by_cases hf : (findEntry key s.cache).isSome
  · rw [if_pos hf]; exact remove_item_memInv s key h
  · rw [if_neg hf]; exact h

theorem clear_memInv (s : AdvancedCache V) : memInv s.clear := rfl

theorem ne_nil_of_not_isEmpty (l : List A) (h : ¬l.isEmpty = true) : l ≠ [] :=
  fun hn => h (by rw [hn]; rfl)

theorem findEntry_some_mem (key : String) (l : List (String × CacheItem V))
    (it : CacheItem V) (h : findEntry key l = some it) : (key, it) ∈ l := by
  induction l with
  | nil => simp [findEntry] at h
  | cons p ps ih =>
    by_cases hm : p.1 == key
    · rw [findEntry, if_pos hm] at h
      cases h
      have hkey : p.1 = key := by simpa using hm
      rw [← hkey]
      exact List.mem_cons_self p ps
    · rw [findEntry, if_neg hm] at h
      exact List.mem_cons_of_mem p (ih h)

theorem mem_findEntry_isSome (key : String) (it : CacheItem V)
    (l : List (String × CacheItem V)) (h : (key, it) ∈ l) : (findEntry key l).isSome := by
  induction l with
  | nil => simp at h
  | cons p ps ih =>
    rcases List.mem_cons.mp h with h1 | h1
    · rw [findEntry, ← h1]
      simp
    · rw [findEntry]
      by_cases hm : p.1 == key
      · rw [if_pos hm]; rfl
      · rw [if_neg hm]; exact ih h1

theorem findEntry_none_not_mem (key : String) (l : List (String × CacheItem V))
    (h : findEntry key l = none) (it : CacheItem V) : (key, it) ∉ l := by
  intro hmem
  have := mem_findEntry_isSome key it l hmem
  rw [h] at this
  simp at this

theorem removeEntry_sublist (key : String) (l : List (String × CacheItem V)) :
    List.Sublist (removeEntry key l) l := by
  induction l with
  | nil => simp [removeEntry]
  | cons p ps ih =>
    rw [removeEntry]
    by_cases hm : p.1 == key
    · rw [if_pos hm]
      exact List.sublist_cons_self p ps
    · rw [if_neg hm]
      exact ih.cons₂ p

theorem removeEntry_length (key : String) (l : List (String × CacheItem V))
    (it : CacheItem V) (h : findEntry key l = some it) :
    (removeEntry key l).length + 1 = l.length := by
  induction l with
  | nil => simp [findEntry] at h
  | cons p ps ih =>
    by_cases hm : p.1 == key
    · rw [removeEntry, if_pos hm]
      rfl
    · rw [findEntry, if_neg hm] at h
      rw [removeEntry, if_neg hm, List.length_cons, List.length_cons, ih h]

theorem foldl_min_mem (f : CacheItem V → Nat) (ps : List (String × CacheItem V)) :
    ∀ p, ps.foldl (fun best q => if f q.2 < f best.2 then q else best) p ∈ p :: ps := by
  induction ps with
  | nil => intro p; simp
  | cons q qs ih =>
    intro p
    rw [List.foldl_cons]
    rcases List.mem_cons.mp (ih (if f q.2 < f p.2 then q else p)) with h1 | h1
    · rw [h1]
      by_cases hq : f q.2 < f p.2
      · rw [if_pos hq]; simp
      · rw [if_neg hq]; simp
    · right
      exact List.mem_cons_of_mem q h1

theorem argminKey_mem (f : CacheItem V → Nat) (l : List (String × CacheItem V))
    (k : String) (h : argminKey f l = some k) : ∃ it, (k, it) ∈ l := by
  cases l with
  | nil => simp [argminKey] at h
  | cons p ps =>
    rw [argminKey] at h
    cases h
    have hmem := foldl_min_mem f ps p
    exact ⟨_, by simpa using hmem⟩

theorem argminKey_isSome_of_ne_nil (f : CacheItem V → Nat)
    (l : List (String × CacheItem V)) (h : l ≠ []) : (argminKey f l).isSome = true := by
  cases l with
  | nil => exact absurd rfl h
  | cons p ps => rfl

theorem choose_mem (s : AdvancedCache V) (now : Nat) (k : String)
    (h : s.choose_eviction_key now = some k) : ∃ it, (k, it) ∈ s.cache := by
  unfold AdvancedCache.choose_eviction_key at h
  by_cases he : s.cache.isEmpty
  · rw [if_pos he] at h
    simp at h
  · rw [if_neg he] at h
    cases hst : s.strategy with
    | lru => rw [hst] at h; exact argminKey_mem _ _ _ h
    | lfu => rw [hst] at h; exact argminKey_mem _ _ _ h
    | fifo => rw [hst] at h; exact argminKey_mem _ _ _ h
    | ttl =>
      rw [hst] at h
      have h2 : (if (s.cache.filter (fun p => p.2.is_expired now)).isEmpty then
          argminKey (fun it => it.created_at) s.cache
        else argminKey (fun it => it.created_at)
          (s.cache.filter (fun p => p.2.is_expired now))) = some k := h
      by_cases he2 : (s.cache.filter (fun p => p.2.is_expired now)).isEmpty
      · rw [if_pos he2] at h2
        exact argminKey_mem _ _ _ h2
      · rw [if_neg he2] at h2
        obtain ⟨it, hit⟩ := argminKey_mem _ _ _ h2
        exact ⟨it, (List.mem_filter.mp hit).1⟩

theorem choose_isSome (s : AdvancedCache V) (now : Nat) (h : ¬s.cache.isEmpty = true) :
    (s.choose_eviction_key now).isSome = true := by
  unfold AdvancedCache.choose_eviction_key
  rw [if_neg h]
  cases hst : s.strategy with
  | lru => exact argminKey_isSome_of_ne_nil _ _ (ne_nil_of_not_isEmpty _ h)
  | lfu => exact argminKey_isSome_of_ne_nil _ _ (ne_nil_of_not_isEmpty _ h)
  | fifo => exact argminKey_isSome_of_ne_nil _ _ (ne_nil_of_not_isEmpty _ h)
  | ttl =>
    have h2 : (if (s.cache.filter (fun p => p.2.is_expired now)).isEmpty then
        argminKey (fun it => it.created_at) s.cache
      else argminKey (fun it => it.created_at)
        (s.cache.filter (fun p => p.2.is_expired now))).isSome = true := by
      by_cases he2 : (s.cache.filter (fun p => p.2.is_expired now)).isEmpty
      · rw [if_pos he2]
        exact argminKey_isSome_of_ne_nil _ _ (ne_nil_of_not_isEmpty _ h)
      · rw [if_neg he2]
        exact argminKey_isSome_of_ne_nil _ _ (ne_nil_of_not_isEmpty _ he2)
    exact h2

end ClaimWise

namespace ClaimWise

theorem evictLoopFuel_below (now : Nat) (fuel : Nat) :
    ∀ s : AdvancedCache V, s.cache.length < fuel →
      ((AdvancedCache.evictLoopFuel now fuel s).cache.length <
          (AdvancedCache.evictLoopFuel now fuel s).max_size ∧
        (AdvancedCache.evictLoopFuel now fuel s).current_memory_usage <
          ((AdvancedCache.evictLoopFuel now fuel s).max_memory_bytes : Int)) ∨
      (AdvancedCache.evictLoopFuel now fuel s).cache = [] := by
  induction fuel with
  | zero => intro s h; exact absurd h (Nat.not_lt_zero _)
  | succ fuel ih =>
    intro s h
    rw [AdvancedCache.evictLoopFuel]
    by_cases hg : (decide (s.max_size ≤ s.cache.length) ||
        decide ((s.max_memory_bytes : Int) ≤ s.current_memory_usage)) = true
    · rw [if_pos hg]
      by_cases he : s.cache.isEmpty
      · rw [if_pos he]
        right
        exact List.isEmpty_iff.mp he
      · rw [if_neg he]
        cases hk : s.choose_eviction_key now with
        | none =>
          have := choose_isSome s now he
          rw [hk] at this
          simp at this
        | some k =>
          apply ih
          obtain ⟨it, hmem⟩ := choose_mem s now k hk
          have hsome := mem_findEntry_isSome k it s.cache hmem
          obtain ⟨it2, hfind⟩ := Option.isSome_iff_exists.mp hsome
          have hlen := removeEntry_length k s.cache it2 hfind
          unfold AdvancedCache.remove_item
          rw [hfind]
          simp only
          omega
    · rw [if_neg hg]
      simp only [Bool.or_eq_true, decide_eq_true_eq, not_or] at hg
      left
      exact ⟨by omega, by omega⟩

theorem set_true_below (s : AdvancedCache V) (key : String) (value : V)
    (ttl : Option Nat) (now : Nat) (hok : (s.set key value ttl now).1 = true) :
    ((s.set key value ttl now).2.cache.length < (s.set key value ttl now).2.max_size ∧
      (s.set key value ttl now).2.current_memory_usage <
        ((s.set key value ttl now).2.max_memory_bytes : Int)) ∨
    (s.set key value ttl now).2.cache = [] := by
  unfold AdvancedCache.set at hok ⊢
  by_cases hbig : s.max_memory_bytes < s.calc_size value
  · rw [if_pos hbig] at hok
    simp at hok
  · rw [if_neg hbig]
    unfold AdvancedCache.evict_if_needed
    exact evictLoopFuel_below now _ _ (by omega)

theorem findEntry_removeEntry_other (k key : String) (l : List (String × CacheItem V))
    (hne : k ≠ key) : findEntry k (removeEntry key l) = findEntry k l := by
  induction l with
  | nil => rfl
  | cons p ps ih =>
    by_cases hm : (p.1 == key) = true
    · have hp1 : p.1 = key := by simpa using hm
      have hk : (p.1 == k) = false := by
        simp only [beq_eq_false_iff_ne, ne_eq, hp1]
        exact fun h => hne h.symm
      simp [removeEntry, findEntry, hm, hk]
    · by_cases hk : (p.1 == k) = true
      · simp [removeEntry, findEntry, hm, hk]
      · simp [removeEntry, findEntry, hm, hk, ih]

theorem remove_item_findEntry_other (s : AdvancedCache V) (key k : String) (hne : k ≠ key) :
    findEntry k (s.remove_item key).cache = findEntry k s.cache := by
  unfold AdvancedCache.remove_item
  cases hf : findEntry key s.cache with
  | none => rfl
  | some it =>
    simp only
    exact findEntry_removeEntry_other k key s.cache hne

theorem remove_item_cache_sublist (s : AdvancedCache V) (key : String) :
    List.Sublist (s.remove_item key).cache s.cache := by
  unfold AdvancedCache.remove_item
  cases hf : findEntry key s.cache with
  | none => exact List.Sublist.refl _
  | some it => exact removeEntry_sublist key s.cache

theorem foldl_remove_cache_sublist (ks : List String) :
    ∀ s : AdvancedCache V,
      List.Sublist ((ks.foldl (fun a j => a.remove_item j) s).cache) s.cache := by
  induction ks with
  | nil => intro s; exact List.Sublist.refl _
  | cons j js ih =>
    intro s
    exact (ih (s.remove_item j)).trans (remove_item_cache_sublist s j)

theorem clean_expired_cache_sublist (s : AdvancedCache V) (t : Nat) :
    List.Sublist (s.clean_expired t).cache s.cache :=
  foldl_remove_cache_sublist _ s

theorem evictLoopFuel_cache_sublist (now : Nat) (fuel : Nat) :
    ∀ s : AdvancedCache V,
      List.Sublist (AdvancedCache.evictLoopFuel now fuel s).cache s.cache := by
  induction fuel with
  | zero => intro s; exact List.Sublist.refl _
  | succ fuel ih =>
    intro s
    rw [AdvancedCache.evictLoopFuel]
    by_cases hg : (decide (s.max_size ≤ s.cache.length) ||
        decide ((s.max_memory_bytes : Int) ≤ s.current_memory_usage)) = true
    · rw [if_pos hg]
      by_cases he : s.cache.isEmpty
      · rw [if_pos he]
      · rw [if_neg he]
        cases hk : s.choose_eviction_key now with
        | none => exact List.Sublist.refl _
        | some k => exact (ih _).trans (remove_item_cache_sublist s k)
    · rw [if_neg hg]

theorem foldl_remove_findEntry_not_mem (ks : List String) (k : String) (hk : k ∉ ks) :
    ∀ s : AdvancedCache V,
      findEntry k ((ks.foldl (fun a j => a.remove_item j) s).cache) = findEntry k s.cache := by
  induction ks with
  | nil => intro s; rfl
  | cons j js ih =>
    intro s
    have hkj : k ≠ j := fun h => hk (h ▸ List.mem_cons_self j js)
    have hkjs : k ∉ js := fun h => hk (List.mem_cons_of_mem j h)
    rw [List.foldl_cons, ih hkjs, remove_item_findEntry_other s j k hkj]

theorem keysNodup_sublist (l l' : List (String × CacheItem V))
    (hsub : List.Sublist l' l) (h : keysNodup l) : keysNodup l' :=
  List.Nodup.sublist (hsub.map Prod.fst) h

theorem not_mem_removeEntry_self (key : String) (l : List (String × CacheItem V))
    (it : CacheItem V) (h : keysNodup l) : (key, it) ∉ removeEntry key l := by
  induction l with
  | nil => simp [removeEntry]
  | cons p ps ih =>
    unfold keysNodup at h
    rw [List.map_cons, List.nodup_cons] at h
    by_cases hm : p.1 == key
    · rw [removeEntry, if_pos hm]
      intro hmem
      have hp1 : p.1 = key := by simpa using hm
      exact h.1 (hp1 ▸ List.mem_map_of_mem Prod.fst hmem)
    · rw [removeEntry, if_neg hm]
      intro hmem
      rcases List.mem_cons.mp hmem with h1 | h1
      · exact hm (by rw [← h1]; simp)
      · exact ih h.2 h1

theorem remove_item_findEntry_self (s : AdvancedCache V) (key : String)
    (h : keysNodup s.cache) : findEntry key (s.remove_item key).cache = none := by
  unfold AdvancedCache.remove_item
  cases hf : findEntry key s.cache with
  | none => exact hf
  | some it =>
    simp only
    cases hf2 : findEntry key (removeEntry key s.cache) with
    | none => rfl
    | some it2 =>
      exact absurd (findEntry_some_mem _ _ _ hf2) (not_mem_removeEntry_self key s.cache it2 h)

theorem remove_item_keysNodup (s : AdvancedCache V) (key : String)
    (h : keysNodup s.cache) : keysNodup (s.remove_item key).cache :=
  keysNodup_sublist _ _ (remove_item_cache_sublist s key) h

theorem findEntry_none_sublist (k : String) (l l' : List (String × CacheItem V))
    (hsub : List.Sublist l' l) (h : findEntry k l = none) : findEntry k l' = none := by
  cases hf : findEntry k l' with
  | none => rfl
  | some it =>
    have hmem := hsub.subset (findEntry_some_mem _ _ _ hf)
    exact absurd hmem (findEntry_none_not_mem k l h it)

theorem foldl_remove_none (ks : List String) (k : String) (s : AdvancedCache V)
    (h : findEntry k s.cache = none) :
    findEntry k ((ks.foldl (fun a j => a.remove_item j) s).cache) = none :=
  findEntry_none_sublist k s.cache _ (foldl_remove_cache_sublist ks s) h

theorem foldl_remove_kills (ks : List String) :
    ∀ (s : AdvancedCache V) (k : String), keysNodup s.cache → k ∈ ks →
      findEntry k ((ks.foldl (fun a j => a.remove_item j) s).cache) = none := by
  induction ks with
  | nil => intro s k _ hk; simp at hk
  | cons j js ih =>
    intro s k hnd hk
    rw [List.foldl_cons]
    by_cases hkj : k = j
    · subst hkj
      exact foldl_remove_none js k _ (remove_item_findEntry_self s k hnd)
    · have hkjs : k ∈ js := by
        rcases List.mem_cons.mp hk with h1 | h1
        · exact absurd h1 hkj
        · exact h1
      exact ih _ k (remove_item_keysNodup s j hnd) hkjs

theorem mem_updateEntry (key : String) (item : CacheItem V)
    (l : List (String × CacheItem V)) (p : String × CacheItem V)
    (h : p ∈ updateEntry key item l) : p ∈ l ∨ p.2 = item := by
  induction l with
  | nil => simp [updateEntry] at h
  | cons q qs ih =>
    by_cases hm : q.1 == key
    · rw [updateEntry, if_pos hm] at h
      rcases List.mem_cons.mp h with h1 | h1
      · right; rw [h1]
      · left; exact List.mem_cons_of_mem q h1
    · rw [updateEntry, if_neg hm] at h
      rcases List.mem_cons.mp h with h1 | h1
      · left; rw [h1]; exact List.mem_cons_self q qs
      · rcases ih h1 with h2 | h2
        · left; exact List.mem_cons_of_mem q h2
        · right; exact h2

theorem clean_expired_sweeps (s : AdvancedCache V) (t : Nat) (hnd : keysNodup s.cache) :
    ∀ p ∈ (s.clean_expired t).cache, p.2.is_expired t = false := by
  intro p hp
  cases hb : p.2.is_expired t with
  | false => rfl
  | true =>
    exfalso
    have hmem_s : p ∈ s.cache := (clean_expired_cache_sublist s t).subset hp
    have hfil : p ∈ s.cache.filter (fun q => q.2.is_expired t) :=
      List.mem_filter.mpr ⟨hmem_s, hb⟩
    have hks : p.1 ∈ (s.cache.filter (fun q => q.2.is_expired t)).map Prod.fst :=
      List.mem_map_of_mem Prod.fst hfil
    have hnone : findEntry p.1 (s.clean_expired t).cache = none :=
      foldl_remove_kills _ s p.1 hnd hks
    have hsome := mem_findEntry_isSome p.1 p.2 _ hp
    rw [hnone] at hsome
    simp at hsome

theorem is_expired_eq (it : CacheItem V) (tt : Nat) (check : Nat) (h : it.ttl = some tt) :
    it.is_expired check = decide (it.created_at + tt < check) := by
  unfold CacheItem.is_expired
  rw [h]

theorem getAt_sweeps (s1 : AdvancedCache V) (key : String) (now : Nat)
    (hclean : ∀ p ∈ s1.cache, p.2.is_expired now = false) :
    ∀ p ∈ (s1.getAt key now).2.cache, p.2.is_expired now = false := by
  unfold AdvancedCache.getAt
  split
  next heq => exact hclean
  next item heq =>
    split
    next hexp =>
      intro p hp
      exact hclean p ((remove_item_cache_sublist s1 key).subset hp)
    next hexp =>
      intro p hp
      rcases mem_updateEntry key _ s1.cache p hp with h1 | h1
      · exact hclean p h1
      · have : p.2.is_expired now = item.is_expired now := by rw [h1]; rfl
        rw [this]
        exact hclean (key, item) (findEntry_some_mem key s1.cache item heq)

theorem get_sweeps (s : AdvancedCache V) (key : String) (now : Nat)
    (hnd : keysNodup s.cache) :
    ∀ p ∈ (s.get key now).2.cache, p.2.is_expired now = false :=
  getAt_sweeps _ key now (clean_expired_sweeps s now hnd)

theorem existsKey_sweeps (s : AdvancedCache V) (key : String) (now : Nat)
    (hnd : keysNodup s.cache) :
    ∀ p ∈ (s.existsKey key now).2.cache, p.2.is_expired now = false := by
  unfold AdvancedCache.existsKey
  split <;> exact clean_expired_sweeps s now hnd

theorem keysList_sweeps (s : AdvancedCache V) (now : Nat) (hnd : keysNodup s.cache) :
    ∀ p ∈ (s.keysList now).2.cache, p.2.is_expired now = false :=
  clean_expired_sweeps s now hnd

theorem set_fresh_unique (s : AdvancedCache V) (key : String) (value : V)
    (ttl : Option Nat) (now : Nat) (hnd : keysNodup s.cache) (it : CacheItem V)
    (hmem : (key, it) ∈
      ((s.removeIfPresent key).insertItem key (s.newItem key value ttl now)).cache) :
    it = s.newItem key value ttl now := by
  unfold AdvancedCache.insertItem at hmem
  simp only at hmem
  rcases List.mem_append.mp hmem with h1 | h1
  · exfalso
    unfold AdvancedCache.removeIfPresent at h1
    by_cases hf : (findEntry key s.cache).isSome
    · rw [if_pos hf] at h1
      obtain ⟨it2, hfind⟩ := Option.isSome_iff_exists.mp hf
      unfold AdvancedCache.remove_item at h1
      rw [hfind] at h1
      simp only at h1
      exact not_mem_removeEntry_self key s.cache it hnd h1
    · rw [if_neg hf] at h1
      have hnone : findEntry key s.cache = none := Option.not_isSome_iff_eq_none.mp hf
      exact findEntry_none_not_mem key s.cache hnone it h1
  · simpa using h1

theorem cache_set_get_roundtrip (s : AdvancedCache V) (k : String) (v : V)
    (t t0 t1 : Nat) (hnd : keysNodup s.cache) (ht : t ≠ 0)
    (hok : (s.set k v (some t) t0).1 = true) :
    ((findEntry k (s.set k v (some t) t0).2.cache).isSome → t1 ≤ t0 + t →
      ((s.set k v (some t) t0).2.get k t1).1 = some v) ∧
    (t0 + t < t1 → ((s.set k v (some t) t0).2.get k t1).1 = none) := by
  by_cases hbig : s.max_memory_bytes < s.calc_size v
  · unfold AdvancedCache.set at hok
    rw [if_pos hbig] at hok
    simp at hok
  · have hset2 : (s.set k v (some t) t0).2 =
        (((s.removeIfPresent k).insertItem k (s.newItem k v (some t) t0)).evict_if_needed t0) := by
      unfold AdvancedCache.set
      rw [if_neg hbig]
    have fttl : (s.newItem k v (some t) t0).ttl = some t := by
      unfold AdvancedCache.newItem pyOrTTL
      simp [ht]
    have fcreated : (s.newItem k v (some t) t0).created_at = t0 := rfl
    have fvalue : (s.newItem k v (some t) t0).value = v := rfl
    have hsub : List.Sublist (s.set k v (some t) t0).2.cache
        (((s.removeIfPresent k).insertItem k (s.newItem k v (some t) t0))).cache := by
      rw [hset2]
      exact evictLoopFuel_cache_sublist t0 _ _
    have huniq : ∀ it : CacheItem V, (k, it) ∈ (s.set k v (some t) t0).2.cache →
        it = s.newItem k v (some t) t0 := fun it hmem =>
      set_fresh_unique s k v (some t) t0 hnd it (hsub.subset hmem)
    constructor
    · intro hkeep hlive
      obtain ⟨it0, hit0⟩ := Option.isSome_iff_exists.mp hkeep
      have hit0f : it0 = s.newItem k v (some t) t0 :=
        huniq it0 (findEntry_some_mem _ _ _ hit0)
      have hfresh_not_exp : (s.newItem k v (some t) t0).is_expired t1 = false := by
        rw [is_expired_eq _ t t1 fttl, fcreated]
        simp
        omega
      have hnotin : k ∉ ((s.set k v (some t) t0).2.cache.filter
          (fun q => q.2.is_expired t1)).map Prod.fst := by
        intro hk
        obtain ⟨p, hpfil, hp1⟩ := List.mem_map.mp hk
        have hpA : p ∈ (s.set k v (some t) t0).2.cache := (List.mem_filter.mp hpfil).1
        have hexp : p.2.is_expired t1 = true := (List.mem_filter.mp hpfil).2
        have hpf : p.2 = s.newItem k v (some t) t0 := by
          subst hp1
          exact huniq p.2 hpA
        rw [hpf, hfresh_not_exp] at hexp
        exact Bool.false_ne_true hexp
      have hfind_clean :
          findEntry k ((s.set k v (some t) t0).2.clean_expired t1).cache =
            findEntry k (s.set k v (some t) t0).2.cache :=
        foldl_remove_findEntry_not_mem _ k hnotin _
      unfold AdvancedCache.get AdvancedCache.getAt
      rw [hfind_clean, hit0, hit0f]
      simp [hfresh_not_exp, fvalue]
    · intro hexp_t
      unfold AdvancedCache.get AdvancedCache.getAt
      cases hf : findEntry k ((s.set k v (some t) t0).2.clean_expired t1).cache with
      | none => rfl
      | some it =>
        have hitf : it = s.newItem k v (some t) t0 := by
          apply huniq
          exact (clean_expired_cache_sublist _ t1).subset (findEntry_some_mem _ _ _ hf)
        have hfresh_exp : (s.newItem k v (some t) t0).is_expired t1 = true := by
          rw [is_expired_eq _ t t1 fttl, fcreated]
          simp
          omega
        rw [hitf]
        simp [hfresh_exp]

end ClaimWise

namespace ClaimWise

/-- Claim C1.  The claim states that `make_llm_request` never returns an
empty or `None` result because an exhausted backend chain always terminates
in the rule-based fallback.  The code contradicts this: the fallback `return`
sits inside the `except` handler of the Gemini `try`, so when the primary
Groq call raises and Gemini returns without raising but with an empty (or
≤ 10 character) text, control falls off the end of the function and Python
returns `None`.  This theorem evaluates the model at two such failing
inputs. -/
theorem C1_llm_chain_can_return_none :
    make_llm_request true .raises (.ok "") .raises "What is the premium?" = none ∧
    make_llm_request true .raises (.ok "Too short.") .raises "What is the premium?" = none :=
  ⟨rfl, rfl⟩

/-- Claim C2, counterexample.  The claim states that `retrieve_top_k` returns
an empty list rather than raising whenever the query fails to embed; but the
call to `embed_texts_with_cache` sits outside any `try`, so an embedding
exception propagates out of `retrieve_top_k` instead of yielding `[]`. -/
theorem C2_counterexample_embed_exception_propagates :
    retrieve_top_k .raises (.ok none) = .raises ∧
      retrieve_top_k .raises (.ok none) ≠ .ok [] :=
  ⟨rfl, by decide⟩

/-- Claim C2, as amended.  `retrieve_top_k` returns `[]` when the embedding
call returns an empty result, when the vector-search RPC raises, or when the
RPC returns no data; an exception from the embedding call itself propagates
to the caller; otherwise the result is exactly the RPC rows in order, hence
at most `k` rows in descending score order whenever the vector-store gateway
honours its `limit_count`/ordering contract. -/
theorem C2_retrieve_top_k_amended :
    (∀ rpc, retrieve_top_k .raises rpc = .raises) ∧
    (∀ rpc, retrieve_top_k (.ok []) rpc = .ok []) ∧
    (∀ embs, retrieve_top_k (.ok embs) .raises = .ok []) ∧
    (∀ embs, retrieve_top_k (.ok embs) (.ok none) = .ok []) ∧
    (∀ embs rows, ¬embs.isEmpty = true →
      retrieve_top_k (.ok embs) (.ok (some rows)) =
        .ok (rows.map (fun r => (r.id, r.content, r.score)))) ∧
    (∀ embs rows (k : Nat), ¬embs.isEmpty = true → rows.length ≤ k →
      ∃ out, retrieve_top_k (.ok embs) (.ok (some rows)) = .ok out ∧ out.length ≤ k ∧
        (rows.Pairwise (fun a b => (b.score.getD 0) ≤ (a.score.getD 0)) →
          out.Pairwise (fun a b => (b.2.2.getD 0) ≤ (a.2.2.getD 0)))) := by
  refine ⟨fun rpc => rfl, fun rpc => rfl, ?_, ?_, ?_, ?_⟩
  · intro embs
    unfold retrieve_top_k
    by_cases h : embs.isEmpty <;> simp [h]
  · intro embs
    unfold retrieve_top_k
    by_cases h : embs.isEmpty <;> simp [h]
  · intro embs rows h
    unfold retrieve_top_k
    simp [h]
  · intro embs rows k h hlen
    refine ⟨rows.map (fun r => (r.id, r.content, r.score)), ?_, by simpa using hlen, ?_⟩
    · unfold retrieve_top_k
      simp [h]
    · intro hsorted
      exact (List.pairwise_map).mpr hsorted

/-- Witness for C2: a non-empty embedding with one returned row passes the
row through unchanged. -/
theorem C2_retrieve_top_k_amended_witness :
    retrieve_top_k (.ok [[1]]) (.ok (some [⟨some 1, some "x", some 2⟩])) =
      .ok [(some 1, some "x", some 2)] :=
  C2_retrieve_top_k_amended.2.2.2.2.1 [[1]] [⟨some 1, some "x", some 2⟩] (by decide)

/-- Claim C3.  The claim states that chunking `"alpha beta alpha beta gamma"`
with size 2 and overlap 1 yields exactly four chunks.  The loop condition
`while i < len(words)` keeps emitting windows after a window has already
reached the end of the token list, so the code produces a fifth trailing
chunk `"gamma"`; the repository's own test
(`src/test/test_rag_chunk.py::test_chunk_texts_basic`, fourth conjunct here)
asserts the no-trailing-fragment behaviour the claim describes and fails
against the code, so the code is the slip.  After deduplication the
duplicate `"alpha beta"` does occur exactly once. -/
theorem C3_chunk_trailing_window_eval :
    chunk_texts ["alpha beta alpha beta gamma"] 2 1 =
      ["alpha beta", "beta alpha", "alpha beta", "beta gamma", "gamma"] ∧
    deduplicate_chunks (chunk_texts ["alpha beta alpha beta gamma"] 2 1) =
      ["alpha beta", "beta alpha", "beta gamma", "gamma"] ∧
    (deduplicate_chunks (chunk_texts ["alpha beta alpha beta gamma"] 2 1)).count
      "alpha beta" = 1 ∧
    chunk_texts ["one two three four five six seven eight nine ten"] 4 1 =
      ["one two three four", "four five six seven", "seven eight nine ten", "ten"] := by
  rw [chunk_texts_eq, chunk_texts_eq]
  refine ⟨by decide, by decide, by decide, by decide⟩

/-- Claim C4.  For every input and all `chunk_size ≥ 1`, `overlap ≥ 0`,
`chunk_texts` terminates (it is a total function) and equals the map that
emits the window starting at word index `t * max(1, chunk_size - overlap)`
for consecutive `t`, so consecutive chunks start exactly
`max(1, chunk_size - overlap) ≥ 1` tokens apart — including when
`overlap ≥ chunk_size`. -/
theorem C4_chunk_stride (texts : List String) (chunk_size overlap : Nat)
    (h : 1 ≤ chunk_size) :
    1 ≤ chunkStep chunk_size overlap ∧
    chunk_texts texts chunk_size overlap =
      (List.range (chunkCount (pySplitWS (joinWith " " texts)).length chunk_size overlap 0 0)).map
        (fun t => chunkSlice (pySplitWS (joinWith " " texts)) chunk_size
          (t * chunkStep chunk_size overlap)) :=
  ⟨le_max_left 1 (chunk_size - overlap), chunk_texts_eq texts chunk_size overlap⟩

/-- Witness for C4 at `overlap ≥ chunk_size` (stride clamps to 1). -/
theorem C4_chunk_stride_witness :
    1 ≤ chunkStep 2 5 ∧
    chunk_texts ["a b c"] 2 5 =
      (List.range (chunkCount (pySplitWS (joinWith " " ["a b c"])).length 2 5 0 0)).map
        (fun t => chunkSlice (pySplitWS (joinWith " " ["a b c"])) 2 (t * chunkStep 2 5)) :=
  C4_chunk_stride ["a b c"] 2 5 (by decide)

/-- Claim C5, counterexample.  When every backend raises, the result is the
rule-based fallback, but the fallback response to a premium question reads
`"Premium information can be found..."`: it contains the capitalized label
`"Premium"` and not the literal substring `"premium"` the claim asserts. -/
theorem C5_counterexample_label_case :
    make_llm_request true .raises .raises .raises "What is the premium?" =
      some (pattern_matching_fallback "What is the premium?") ∧
    pyContains (pattern_matching_fallback "What is the premium?") "premium" = false :=
  ⟨rfl, by decide⟩

/-- Claim C5, as amended.  When every completion backend raises, the result
comes from the deterministic rule-based fallback, and for a question in a
recognized category the returned answer contains the category label up to
letter case: the response to a "premium" question contains `"Premium"`, and
the "claim" and "exclusion" responses contain their labels verbatim. -/
theorem C5_fallback_contains_label :
    (∀ (pg : Bool) (prompt : String),
      make_llm_request pg .raises .raises .raises prompt =
        some (pattern_matching_fallback prompt)) ∧
    pyContains (pattern_matching_fallback "What is the premium?") "Premium" = true ∧
    pyContains (pattern_matching_fallback "How to claim?") "claim" = true ∧
    pyContains (pattern_matching_fallback "What is excluded?") "exclusion" = true := by
  refine ⟨fun pg prompt => ?_, by decide, by decide, by decide⟩
  cases pg <;> rfl

/-- Claim C6, counterexample.  The claim covers every TTL `t`, but at `t = 0`
the idiom `ttl or self.default_ttl` (caching.py line 195) treats the `0` as
falsy and stores the default TTL instead: on a cache whose `default_ttl` is
`None` the fresh entry never expires, so `get(k)` still returns the value
after more than 0 seconds have elapsed, where the claim demands absent. -/
theorem C6_counterexample_zero_ttl :
    (cacheDemo.set "k" "hi" (some 0) 0).1 = true ∧
    ((cacheDemo.set "k" "hi" (some 0) 0).2.get "k" 5).1 = some "hi" :=
  ⟨rfl, rfl⟩

/-- Claim C6, as amended.  For every TTL `t ≠ 0` (Python `ttl or
self.default_ttl` replaces a zero TTL with the default), after `set(k, v, t)`
at time `t0` on a cache whose dict holds each key once, `get(k)` at any
`t1 ≤ t0 + t` returns `v` as long as the entry was not evicted, and at any
`t1 > t0 + t` returns absent even with no intervening operation; moreover
`get`, `exists` and `keys` leave no TTL-expired entry in the cache, so an
expired value is never observably returned. -/
theorem C6_cache_ttl_roundtrip_and_sweep :
    (∀ (V : Type) (s : AdvancedCache V) (k : String) (v : V) (t t0 t1 : Nat),
      keysNodup s.cache → t ≠ 0 → (s.set k v (some t) t0).1 = true →
      ((findEntry k (s.set k v (some t) t0).2.cache).isSome → t1 ≤ t0 + t →
        ((s.set k v (some t) t0).2.get k t1).1 = some v) ∧
      (t0 + t < t1 → ((s.set k v (some t) t0).2.get k t1).1 = none)) ∧
    (∀ (V : Type) (s : AdvancedCache V) (k : String) (now : Nat), keysNodup s.cache →
      ∀ p ∈ (s.get k now).2.cache, p.2.is_expired now = false) ∧
    (∀ (V : Type) (s : AdvancedCache V) (k : String) (now : Nat), keysNodup s.cache →
      ∀ p ∈ (s.existsKey k now).2.cache, p.2.is_expired now = false) ∧
    (∀ (V : Type) (s : AdvancedCache V) (now : Nat), keysNodup s.cache →
      ∀ p ∈ (s.keysList now).2.cache, p.2.is_expired now = false) :=
  ⟨fun _ s k v t t0 t1 hnd ht hok => cache_set_get_roundtrip s k v t t0 t1 hnd ht hok,
   fun _ s k now hnd => get_sweeps s k now hnd,
   fun _ s k now hnd => existsKey_sweeps s k now hnd,
   fun _ s now hnd => keysList_sweeps s now hnd⟩

/-- Witness for C6 on a concrete cache: a value set at time 0 with a 10
second TTL is returned at time 5 and absent at time 11. -/
theorem C6_cache_ttl_roundtrip_and_sweep_witness :
    ((cacheDemo.set "k" "hi" (some 10) 0).2.get "k" 5).1 = some "hi" ∧
    ((cacheDemo.set "k" "hi" (some 10) 0).2.get "k" 11).1 = none :=
  ⟨(C6_cache_ttl_roundtrip_and_sweep.1 String cacheDemo "k" "hi" 10 0 5
      List.nodup_nil (by decide) rfl).1 (by decide) (by decide),
   (C6_cache_ttl_roundtrip_and_sweep.1 String cacheDemo "k" "hi" 10 0 11
      List.nodup_nil (by decide) rfl).2 (by decide)⟩

/-- Claim C7, counterexample.  The claim states that `chunk_texts` returns at
most 10,000 chunks, but the safety check `if len(chunks) > 10000: break` runs
after the append, so 10,002 one-word windows produce 10,001 chunks. -/
theorem C7_counterexample_10001_chunks :
    ¬ (chunk_texts (List.replicate 10002 "a") 1 0).length ≤ 10000 := by
  rw [chunk_texts_eq]
  rw [show (10002 : Nat) = 10001 + 1 from rfl, pySplit_join_replicate 10001]
  simp only [List.length_map, List.length_range, List.length_replicate]
  decide

/-- Claim C7, as amended.  For every input, `chunk_texts` returns at most
10,001 chunks: once the chunk count exceeds the 10,000 bound the loop stops
early and returns the chunks produced so far. -/
theorem C7_chunk_count_bound (texts : List String) (chunk_size overlap : Nat) :
    (chunk_texts texts chunk_size overlap).length ≤ 10001 := by
  rw [chunk_texts_eq]
  simp only [List.length_map, List.length_range]
  unfold chunkCount
  omega

/-- Claim C8.  `deduplicate_chunks` is idempotent: deduplicating an already
deduplicated list changes nothing.  Duplicates are detected by exact match on
the trimmed, lower-cased chunk text (`dedupKey`), and the loop keeps the
first occurrence while dropping later identical chunks. -/
theorem C8_deduplicate_idempotent (xs : List String) :
    deduplicate_chunks (deduplicate_chunks xs) = deduplicate_chunks xs :=
  dedupLoop_idem xs []

/-- Claim C9.  `get_content_fingerprint` is a function of the normalized
(whitespace-collapsed, lower-cased, trimmed) text: for any digest function,
two texts with identical normalized forms yield the identical fingerprint —
in particular texts differing only in letter case or only in whitespace. -/
theorem C9_fingerprint_of_normalized :
    (∀ (digest : String → String) (t1 t2 : String), pyNormalizeWS t1 = pyNormalizeWS t2 →
      get_content_fingerprint digest t1 = get_content_fingerprint digest t2) ∧
    (∀ digest : String → String,
      get_content_fingerprint digest "Premium  Amount" =
        get_content_fingerprint digest "premium amount") ∧
    (∀ digest : String → String,
      get_content_fingerprint digest "  premium amount " =
        get_content_fingerprint digest "premium amount") :=
  ⟨fun digest _ _ h => congrArg digest h,
   fun digest => congrArg digest (by decide),
   fun digest => congrArg digest (by decide)⟩

/-- Witness for C9 with the identity digest on a concrete pair of texts that
differ in case and whitespace. -/
theorem C9_fingerprint_of_normalized_witness :
    get_content_fingerprint (fun s => s) "A  B" =
      get_content_fingerprint (fun s => s) "a b" :=
  C9_fingerprint_of_normalized.1 (fun s => s) "A  B" "a b" (by decide)

/-- Claim C10.  `AdvancedCache` maintains the representation invariant that
`_current_memory_usage` equals the sum of `size_bytes` over all stored
entries, preserved by `set`, `get`, `delete`, `clear`, the expiry sweep and
the eviction loop; and every `set` call that returns `true` leaves the item
count strictly below `max_size` and the tracked byte usage strictly below
the byte budget, unless the cache is left empty. -/
theorem C10_cache_memory_invariant :
    (∀ (V : Type) (s : AdvancedCache V) (key : String) (value : V) (ttl : Option Nat)
      (now : Nat), memInv s → memInv (s.set key value ttl now).2) ∧
    (∀ (V : Type) (s : AdvancedCache V) (key : String) (now : Nat),
      memInv s → memInv (s.get key now).2) ∧
    (∀ (V : Type) (s : AdvancedCache V) (key : String),
      memInv s → memInv (s.delete key).2) ∧
    (∀ (V : Type) (s : AdvancedCache V), memInv s.clear) ∧
    (∀ (V : Type) (s : AdvancedCache V) (t : Nat), memInv s → memInv (s.clean_expired t)) ∧
    (∀ (V : Type) (s : AdvancedCache V) (now : Nat),
      memInv s → memInv (s.evict_if_needed now)) ∧
    (∀ (V : Type) (s : AdvancedCache V) (key : String) (value : V) (ttl : Option Nat)
      (now : Nat), (s.set key value ttl now).1 = true →
      ((s.set key value ttl now).2.cache.length < (s.set key value ttl now).2.max_size ∧
        (s.set key value ttl now).2.current_memory_usage <
          ((s.set key value ttl now).2.max_memory_bytes : Int)) ∨
      (s.set key value ttl now).2.cache = []) :=
  ⟨fun _ s key value ttl now h => set_memInv s key value ttl now h,
   fun _ s key now h => get_memInv s key now h,
   fun _ s key h => delete_memInv s key h,
   fun _ s => clear_memInv s,
   fun _ s t h => clean_expired_memInv s t h,
   fun _ s now h => evict_if_needed_memInv s now h,
   fun _ s key value ttl now hok => set_true_below s key value ttl now hok⟩

/-- Witness for C10 on a concrete cache: the invariant holds after a
successful `set`, which also leaves the cache strictly below both bounds. -/
theorem C10_cache_memory_invariant_witness :
    memInv (cacheDemo.set "k" "hi" none 0).2 ∧
    (((cacheDemo.set "k" "hi" none 0).2.cache.length <
        (cacheDemo.set "k" "hi" none 0).2.max_size ∧
      (cacheDemo.set "k" "hi" none 0).2.current_memory_usage <
        ((cacheDemo.set "k" "hi" none 0).2.max_memory_bytes : Int)) ∨
    (cacheDemo.set "k" "hi" none 0).2.cache = []) :=
  ⟨C10_cache_memory_invariant.1 String cacheDemo "k" "hi" none 0 rfl,
   C10_cache_memory_invariant.2.2.2.2.2.2 String cacheDemo "k" "hi" none 0 rfl⟩

end ClaimWise
